import Mathlib

/-!
# The yaz package codec and read-only overlay

A shallow embedding of `application/yaz/build.go` and `application/yaz/yaz.go`.

Strings are lists of characters, file contents are lists of bytes (naturals),
the file system is a finite map from cleaned absolute paths (lists of path
components) to nodes, and a tar stream is the list of its entries.
Paths follow the POSIX rules of `path/filepath` (separator `/`).
-/

namespace Gou

/-- Go strings, as character lists. -/
abbrev Str := List Char

/-- File contents and stream contents. -/
abbrev Bytes := List Nat

/-! ## Policy tables (build.go lines 15-16) -/

/-- The `ignores` table of build.go. -/
def ignores : List Str :=
  ["/data".toList, "/db".toList, "/logs".toList, "/tmp".toList, "/vendor".toList,
   ".github".toList, ".git".toList, "/.gitignore".toList, "/.gitmodules".toList,
   "/.gitattributes".toList, "/.gitkeep".toList, "/.gitlab-ci.yml".toList]

/-- The keys of the `encryptFiles` map of build.go (every key maps to true). -/
def encryptFiles : List Str :=
  ["js".toList, "yao".toList, "jsonc".toList, "json".toList, "html".toList, "htm".toList,
   "css".toList, "txt".toList, "md".toList, "go".toList, "yml".toList, "yaml".toList,
   "xml".toList, "conf".toList, "ini".toList, "toml".toList, "sql".toList, "tpl".toList,
   "tmpl".toList, "tmpl.html".toList, "tmpl.js".toList, "tmpl.css".toList,
   "tmpl.txt".toList, "tmpl.yml".toList, "tmpl.yaml".toList, "tmpl.xml".toList,
   "tmpl.conf".toList, "tmpl.ini".toList, "tmpl.toml".toList, "tmpl.sql".toList,
   "tmpl.tpl".toList, "tmpl.tmpl".toList, "tmpl.tmpl.html".toList, "tmpl.tmpl.js".toList,
   "tmpl.tmpl.css".toList, "tmpl.tmpl.txt".toList, "tmpl.tmpl.yml".toList,
   "tmpl.tmpl.yaml".toList, "tmpl.tmpl.xml".toList, "tmpl.tmpl.conf".toList,
   "tmpl.tmpl.ini".toList, "tmpl.tmpl.toml".toList, "tmpl.tmpl.sql".toList,
   "tmpl.tmpl.tpl".toList, "tmpl.tmpl.tmpl".toList]

/-! ## String and path helpers (`strings`, `path/filepath`) -/

/-- Go `strings.HasPrefix`. -/
def HasPrefix (s pre : Str) : Bool := pre.isPrefixOf s

/-- Go `strings.TrimPrefix`. -/
def TrimPrefix (s pre : Str) : Str :=
  if pre.isPrefixOf s then s.drop pre.length else s

/-- The loop of `filepath.Ext`, run over the reversed path: stop at the first
separator, return the suffix from the first dot met. -/
def extScan : List Char → List Char → Str
  | [], _ => []
  | c :: rest, acc =>
    if c = '/' then [] else if c = '.' then '.' :: acc else extScan rest (c :: acc)

/-- Go `filepath.Ext`: the suffix starting at the last dot of the last element. -/
def Ext (path : Str) : Str := extScan path.reverse []

/-- The expression `strings.TrimPrefix(filepath.Ext(p), ".")` used by compress,
uncompress and Read. -/
def extOf (path : Str) : Str := TrimPrefix (Ext path) ['.']

/-- The lookup `encryptFiles[ext]`. -/
def eligible (ext : Str) : Bool := encryptFiles.contains ext

/-- The exclusion loop of compress: some `ignores` element is a prefix. -/
def excluded (relPath : Str) : Bool := ignores.any (fun ig => HasPrefix relPath ig)

/-- Components joined with the separator. -/
def joinSegs : List Str → Str
  | [] => []
  | [s] => s
  | s :: rest => s ++ '/' :: joinSegs rest

/-! ## Cipher capability -/

/-- The `Cipher` interface: two stream transformers that may fail. A transformer
is taken to be a function of the bytes it reads. -/
structure Cipher where
  Encrypt : Bytes → Option Bytes
  Decrypt : Bytes → Option Bytes

/-- Symmetry: decrypting an encryption gives the input back. -/
def Cipher.Symmetric (c : Cipher) : Prop :=
  ∀ x, ∃ y, c.Encrypt x = some y ∧ c.Decrypt y = some x

/-! ## Source trees and `filepath.Walk` -/

mutual
/-- A directory tree of regular files and directories. -/
inductive Node where
  | file (data : Bytes)
  | dir (kids : Forest)
/-- The listing of a directory, in the order `filepath.Walk` reads it. -/
inductive Forest where
  | nil
  | cons (name : Str) (node : Node) (rest : Forest)
end

/-- What the walk callback receives: the components below the walk root, the
directory flag, and the bytes of a regular file. -/
structure WalkEntry where
  segs : List Str
  isDir : Bool
  data : Bytes
deriving DecidableEq, Repr

mutual
/-- Pre-order walk of a node reached by `rel` below the root. -/
def walkNode (rel : List Str) : Node → List WalkEntry
  | .file d => [⟨rel, false, d⟩]
  | .dir kids => ⟨rel, true, []⟩ :: walkForest rel kids
/-- Pre-order walk of the children of the directory at `rel`. -/
def walkForest (rel : List Str) : Forest → List WalkEntry
  | .nil => []
  | .cons name n rest => walkNode (rel ++ [name]) n ++ walkForest rel rest
end

/-- Go `filepath.Rel(root, path)` for a path the walk produced: `.` for the root,
the components below it joined by the separator otherwise. -/
def relPath (segs : List Str) : Str :=
  match segs with
  | [] => ['.']
  | _ => joinSegs segs

/-! ## Paths -/

/-- A cleaned absolute path: its components below the root directory. -/
abbrev Path := List Str

/-- The string form of a cleaned absolute path. -/
def render (p : Path) : Str := '/' :: joinSegs p

/-- Go `strings.Split(s, "/")`. -/
def splitSlash : Str → List Str
  | [] => [[]]
  | c :: cs =>
    if c = '/' then [] :: splitSlash cs
    else match splitSlash cs with
      | [] => [[c]]
      | s :: ss => (c :: s) :: ss

/-- Go `filepath.Clean` of a rooted path, component by component: empty and `.`
components are dropped, `..` removes the component before it and is dropped at
the root. -/
def cleanInto (stack : Path) : List Str → Path
  | [] => stack
  | s :: rest =>
    if s = [] ∨ s = ['.'] then cleanInto stack rest
    else if s = ['.', '.'] then cleanInto stack.dropLast rest
    else cleanInto (stack ++ [s]) rest

/-- Go `filepath.Join(base, name)` for a cleaned absolute `base`. -/
def Join (base : Path) (name : Str) : Path := cleanInto base (splitSlash name)

/-- Go `filepath.Dir` of a cleaned absolute path. -/
def Dir (p : Path) : Path := p.dropLast

/-- Go `filepath.Base` of a cleaned absolute path. -/
def Base (p : Path) : Str := p.getLast?.getD ['/']

/-! ## File system -/

/-- Errors of the operations below. -/
inductive Err where
  | notExist | isDir | notDir | alreadyExists
  | writeTooLong | missedWriting | unexpectedEOF | unknownType
  | cipher | readOnly | noWatch | badArchive
deriving DecidableEq, Repr

/-- A file-system node. -/
inductive FNode where
  | dir
  | file (data : Bytes)
deriving DecidableEq, Repr

/-- The file system: an association list, the first binding of a path wins.
The root directory always exists. -/
abbrev FS := List (Path × FNode)

/-- The first binding of `p`. -/
def FS.find : FS → Path → Option FNode
  | [], _ => none
  | (k, v) :: rest, p => if k = p then some v else FS.find rest p

/-- Go `os.Stat`: the node at `p`, none when it does not exist. -/
def FS.stat (fs : FS) (p : Path) : Option FNode :=
  if p = [] then some .dir else fs.find p

/-- Bind `p` to `n`. -/
def FS.put (fs : FS) (p : Path) (n : FNode) : FS := (p, n) :: fs

/-- Drop every binding of `p`. -/
def FS.erase (fs : FS) (p : Path) : FS := fs.filter (fun e => decide (e.1 ≠ p))

/-- Some node lies directly in the directory `p`. -/
def FS.hasChild (fs : FS) (p : Path) : Bool :=
  fs.any (fun e => decide (e.1 ≠ [] ∧ e.1.dropLast = p))

/-- Some proper ancestor of `p` is a regular file. -/
def FS.fileAbove (fs : FS) (p : Path) : Bool :=
  p.inits.any (fun q => decide (q ≠ p) && (match fs.stat q with
    | some (.file _) => true
    | _ => false))

/-- Go `os.Create`: create or truncate the regular file at `p`. With no parent
directory the error is `notDir` when the path runs through a regular file and
`notExist` otherwise. -/
def Create (fs : FS) (p : Path) : Except Err FS :=
  match fs.stat p with
  | some .dir => .error .isDir
  | _ =>
    match fs.stat (Dir p) with
    | some .dir => .ok (fs.put p (.file []))
    | some (.file _) => .error .notDir
    | none => if fs.fileAbove p then .error .notDir else .error .notExist

/-- Writing `data` through the handle of the file at `p`. -/
def writeFile (fs : FS) (p : Path) (data : Bytes) : FS := fs.put p (.file data)

/-- Go `os.Open` followed by reading everything. A missing file is `notDir` when
the path runs through a regular file and `notExist` otherwise. -/
def readFile (fs : FS) (p : Path) : Except Err Bytes :=
  match fs.stat p with
  | some (.file d) => .ok d
  | some .dir => .error .isDir
  | none => if fs.fileAbove p then .error .notDir else .error .notExist

/-- The loop of `os.MkdirAll` over the components still to create. -/
def mkdirFrom (pre : Path) : List Str → FS → Except Err FS
  | [], fs => .ok fs
  | s :: rest, fs =>
    match fs.stat (pre ++ [s]) with
    | some .dir => mkdirFrom (pre ++ [s]) rest fs
    | some (.file _) => .error .notDir
    | none => mkdirFrom (pre ++ [s]) rest (fs.put (pre ++ [s]) .dir)

/-- Go `os.MkdirAll`. -/
def MkdirAll (fs : FS) (p : Path) : Except Err FS := mkdirFrom [] p fs

/-- Go `os.Remove` with its error dropped, as in `defer os.Remove(...)`: a file
or an empty directory goes away, anything else stays. -/
def Remove (fs : FS) (p : Path) : FS :=
  match fs.stat p with
  | some (.file _) => fs.erase p
  | some .dir => if p = [] ∨ fs.hasChild p then fs else fs.erase p
  | none => fs

/-! ## The tar stream -/

/-- The `Typeflag` of a tar header. -/
inductive Typeflag where
  | TypeReg
  | TypeDir
  | other (code : Nat)
deriving DecidableEq, Repr

/-- The header fields the program uses. -/
structure Header where
  Name : Str
  Typeflag : Typeflag
  Size : Nat
deriving DecidableEq, Repr

/-- An entry of the stream: a header and the payload bytes that follow it. -/
structure Entry where
  hdr : Header
  payload : Bytes
deriving DecidableEq, Repr

/-- The state of `tar.Writer`: the entries written so far, newest first. -/
structure TarWriter where
  rev : List Entry
deriving DecidableEq, Repr

/-- Bytes of the current entry still owed to the writer. -/
def TarWriter.owed (tw : TarWriter) : Nat :=
  match tw.rev with
  | [] => 0
  | e :: _ => e.hdr.Size - e.payload.length

/-- Go `tar.Writer.WriteHeader`: fails when the previous entry is short of the
size its header announced. -/
def TarWriter.WriteHeader (tw : TarWriter) (h : Header) : Except Err TarWriter :=
  if tw.owed > 0 then .error .missedWriting else .ok ⟨⟨h, []⟩ :: tw.rev⟩

/-- The `io.Copy(tw, r)` of compress: the writer takes the bytes the header still
allows, and reports `ErrWriteTooLong` when more arrive. -/
def TarWriter.Write (tw : TarWriter) (b : Bytes) : Option Err × TarWriter :=
  match tw.rev with
  | [] => (if b = [] then none else some .writeTooLong, tw)
  | e :: rest =>
    (if b.length > e.hdr.Size - e.payload.length then some .writeTooLong else none,
      ⟨⟨e.hdr, e.payload ++ b.take (e.hdr.Size - e.payload.length)⟩ :: rest⟩)

/-- The entries of the finished stream, oldest first. -/
def TarWriter.stream (tw : TarWriter) : List Entry := tw.rev.reverse

/-- Go `tar.FileInfoHeader(info, ...)` followed by `header.Name = relPath`. -/
def FileInfoHeader (e : WalkEntry) : Header :=
  if e.isDir then ⟨relPath e.segs, .TypeDir, 0⟩
  else ⟨relPath e.segs, .TypeReg, e.data.length⟩

/-- Reading the payload of an entry from `tar.Reader` to its end: a payload
shorter than the header size is a truncated stream, and the error comes after
the bytes that are there. -/
def readPayload (e : Entry) : Except Err Bytes :=
  if e.payload.length < e.hdr.Size then .error .unexpectedEOF else .ok e.payload

/-! ## Build: `compress` -/

/-- What the walk callback of compress works on: the tar writer and the file
system (the intermediate `.enc` files live there). -/
structure BuildState where
  tw : TarWriter
  fs : FS

/-- The plain branch of the callback: `io.Copy(tw, file)`. -/
def copyPlain (tw : TarWriter) (fs : FS) (data : Bytes) : Option Err × BuildState :=
  match tw.Write data with
  | (some err, tw2) => (some err, ⟨tw2, fs⟩)
  | (none, tw2) => (none, ⟨tw2, fs⟩)

/-- The encrypting branch of the callback: create the intermediate file, encrypt
into it, read it back into the tar writer; the deferred `os.Remove` runs on
every way out once the file was created. -/
def copyEncrypted (c : Cipher) (tw : TarWriter) (fs : FS) (encryptFile : Path)
    (data : Bytes) : Option Err × BuildState :=
  match Create fs encryptFile with
  | .error err => (some err, ⟨tw, fs⟩)
  | .ok fs1 =>
    match c.Encrypt data with
    | none => (some .cipher, ⟨tw, Remove fs1 encryptFile⟩)
    | some enc =>
      let fs2 := writeFile fs1 encryptFile enc
      match readFile fs2 encryptFile with
      | .error err => (some err, ⟨tw, Remove fs2 encryptFile⟩)
      | .ok back =>
        match tw.Write back with
        | (some err, tw2) => (some err, ⟨tw2, Remove fs2 encryptFile⟩)
        | (none, tw2) => (none, ⟨tw2, Remove fs2 encryptFile⟩)

/-- The path of the intermediate file of compress:
`filepath.Join(filepath.Dir(target), filepath.Base(path)+".enc")`. -/
def encryptFile (target path : Path) : Path :=
  Join (Dir target) (Base path ++ ".enc".toList)

/-- The callback compress hands to `filepath.Walk`, for one visited entry.
The bytes of a regular file are those the walk found (`e.data`). -/
def compressFn (cipher : Option Cipher) (root target : Path) (e : WalkEntry)
    (st : BuildState) : Option Err × BuildState :=
  if excluded (relPath e.segs) then (none, st)
  else
    match st.tw.WriteHeader (FileInfoHeader e) with
    | .error err => (some err, st)
    | .ok tw1 =>
      if e.isDir then (none, ⟨tw1, st.fs⟩)
      else
        let path := root ++ e.segs
        let ext := extOf (render path)
        match cipher with
        | some c =>
          if eligible ext then copyEncrypted c tw1 st.fs (encryptFile target path) e.data
          else copyPlain tw1 st.fs e.data
        | none => copyPlain tw1 st.fs e.data

/-- The walk of compress over the visited entries: the first error stops it. -/
def compressWalk (cipher : Option Cipher) (root target : Path) :
    List WalkEntry → BuildState → Option Err × BuildState
  | [], st => (none, st)
  | e :: rest, st =>
    match compressFn cipher root target e st with
    | (some err, st1) => (some err, st1)
    | (none, st1) => compressWalk cipher root target rest st1

/-- The entries compress writes for the tree `t`, when it succeeds. -/
def buildEntries (cipher : Option Cipher) (root target : Path) (fs : FS) (t : Node) :
    Except Err (List Entry) :=
  match compressWalk cipher root target (walkNode [] t) ⟨⟨[]⟩, fs⟩ with
  | (some err, _) => .error err
  | (none, st) => .ok st.tw.stream

/-- Byte order on strings, the order of a directory listing. -/
def strLe : Str → Str → Bool
  | [], _ => true
  | _ :: _, [] => false
  | a :: as, b :: bs => if a = b then strLe as bs else decide (a.toNat < b.toNat)

/-- Insertion into a sorted listing, keeping one copy of each name. -/
def insertName (n : Str) : List Str → List Str
  | [] => [n]
  | m :: rest =>
    if n = m then m :: rest
    else if strLe n m then n :: m :: rest
    else m :: insertName n rest

/-- The sorted names of the nodes directly in the directory `p`. -/
def childNames (fs : FS) (p : Path) : List Str :=
  fs.foldr (fun e acc =>
    match e.1.getLast? with
    | some n => if e.1.dropLast = p then insertName n acc else acc
    | none => acc) []

/-- A listing as a forest. -/
def mkForest : List (Str × Node) → Forest
  | [] => .nil
  | (n, t) :: rest => .cons n t (mkForest rest)

/-- The tree below `p` as the walk finds it; the fuel bounds the depth. -/
def readTree : Nat → FS → Path → Option Node
  | 0, _, _ => none
  | n + 1, fs, p =>
    match fs.stat p with
    | none => none
    | some (.file d) => some (.file d)
    | some .dir =>
      some (.dir (mkForest ((childNames fs p).filterMap
        (fun nm => (readTree n fs (p ++ [nm])).map (fun t => (nm, t))))))

/-- The serialisation of a tar stream through gzip into file bytes, which the
program leaves to `archive/tar` and `compress/gzip`. -/
structure Codec where
  ser : List Entry → Bytes
  de : Bytes → Except Err (List Entry)

/-- The function `compress`: create the target, walk the root, write the stream.
The walk sees the tree as it is once the target is created, and the stream
reaches the target in one write at the end; a build whose target or intermediate
files lie inside the walked tree, so that it changes what it reads, is not
followed by this definition. -/
def compress (codec : Codec) (fs : FS) (root target : Path) (cipher : Option Cipher) :
    Option Err × FS :=
  match Create fs target with
  | .error err => (some err, fs)
  | .ok fs1 =>
    match readTree (fs1.length + 1) fs1 root with
    | none => (some .notExist, writeFile fs1 target (codec.ser []))
    | some t =>
      match compressWalk cipher root target (walkNode [] t) ⟨⟨[]⟩, fs1⟩ with
      | (err, st) => (err, writeFile st.fs target (codec.ser st.tw.stream))

/-! ## Read: `uncompress` -/

/-- The state of the loop of uncompress: the file system and the intermediate
files whose removal is deferred to the return, newest first. -/
structure ReadState where
  fs : FS
  deferred : List Path

/-- The path of the intermediate file of uncompress:
`filepath.Join(dest, filepath.Base(target)+".dec")`. -/
def decryptFile (dest target : Path) : Path :=
  Join dest (Base target ++ ".dec".toList)

/-- The decrypting branch of the `tar.TypeReg` case. -/
def extractDecrypted (c : Cipher) (st : ReadState) (target dfile : Path) (e : Entry) :
    Option Err × ReadState :=
  match Create st.fs dfile with
  | .error err => (some err, st)
  | .ok fs2 =>
    match readPayload e with
    | .error err => (some err, ⟨fs2, dfile :: st.deferred⟩)
    | .ok bytes =>
      match c.Decrypt bytes with
      | none => (some .cipher, ⟨fs2, dfile :: st.deferred⟩)
      | some plain =>
        let fs3 := writeFile fs2 dfile plain
        match readFile fs3 dfile with
        | .error err => (some err, ⟨fs3, dfile :: st.deferred⟩)
        | .ok back => (none, ⟨writeFile fs3 target back, dfile :: st.deferred⟩)

/-- The body of the loop of uncompress for one entry. -/
def uncompressEntry (cipher : Option Cipher) (dest : Path) (e : Entry) (st : ReadState) :
    Option Err × ReadState :=
  let target := Join dest e.hdr.Name
  match e.hdr.Typeflag with
  | .TypeDir =>
    match MkdirAll st.fs target with
    | .error err => (some err, st)
    | .ok fs1 => (none, ⟨fs1, st.deferred⟩)
  | .TypeReg =>
    match Create st.fs target with
    | .error err => (some err, st)
    | .ok fs1 =>
      let ext := extOf (render target)
      match cipher with
      | some c =>
        if eligible ext then
          extractDecrypted c ⟨fs1, st.deferred⟩ target (decryptFile dest target) e
        else
          match readPayload e with
          | .error err => (some err, ⟨writeFile fs1 target e.payload, st.deferred⟩)
          | .ok bytes => (none, ⟨writeFile fs1 target bytes, st.deferred⟩)
      | none =>
        match readPayload e with
        | .error err => (some err, ⟨writeFile fs1 target e.payload, st.deferred⟩)
        | .ok bytes => (none, ⟨writeFile fs1 target bytes, st.deferred⟩)
  | .other _ => (some .unknownType, st)

/-- The loop of uncompress over the entries of the stream. -/
def uncompressLoop (cipher : Option Cipher) (dest : Path) :
    List Entry → ReadState → Option Err × ReadState
  | [], st => (none, st)
  | e :: rest, st =>
    match uncompressEntry cipher dest e st with
    | (some err, st1) => (some err, st1)
    | (none, st1) => uncompressLoop cipher dest rest st1

/-- The deferred `os.Remove` calls, run at the return, newest first. -/
def runDeferred (fs : FS) (deferred : List Path) : FS := deferred.foldl Remove fs

/-- The entries of a stream extracted into `dest`: the loop, then the deferred
removals, on success and on error alike. -/
def extractEntries (cipher : Option Cipher) (dest : Path) (es : List Entry) (fs : FS) :
    Option Err × FS :=
  match uncompressLoop cipher dest es ⟨fs, []⟩ with
  | (err, st) => (err, runDeferred st.fs st.deferred)

/-- The function `uncompress`: open and decode the file, extract its entries. -/
def uncompress (codec : Codec) (fs : FS) (file dest : Path) (cipher : Option Cipher) :
    Option Err × FS :=
  match readFile fs file with
  | .error err => (some err, fs)
  | .ok bytes =>
    match codec.de bytes with
    | .error err => (some err, fs)
    | .ok es => extractEntries cipher dest es fs

/-! ## Package lifecycle API -/

/-- Go `os.Stat` as the "-To" functions use it: the node, `notExist`, or another
error when the path runs through a regular file. -/
def Stat (fs : FS) (p : Path) : Except Err FNode :=
  if fs.fileAbove p then .error .notDir
  else match fs.stat p with
    | some n => .ok n
    | none => .error .notExist

/-- Go `os.IsNotExist(err)` for the error of a `Stat` result (false for nil). -/
def statIsNotExist (r : Except Err FNode) : Bool :=
  match r with
  | .error .notExist => true
  | _ => false

/-- What the surroundings supply: the archive serialisation and `os.TempDir()`. -/
structure Env where
  codec : Codec
  tmp : Path

/-- Go `ioutil.TempDir(dir, pfx + "*")`: a new directory named by the prefix and
the random number the runtime drew. -/
def TempDir (fs : FS) (dir : Path) (pfx : Str) (rand : Nat) : Except Err (Path × FS) :=
  let p := dir ++ [pfx ++ Nat.toDigits 10 rand]
  match fs.stat p with
  | some _ => .error .alreadyExists
  | none =>
    match fs.stat dir with
    | some .dir => .ok (p, fs.put p .dir)
    | some (.file _) => .error .notDir
    | none => .error .notExist

/-- The function `Pack`. -/
def Pack (env : Env) (fs : FS) (root : Path) (cipher : Option Cipher) (rand : Nat) :
    Except Err Path × FS :=
  match TempDir fs env.tmp "pack-".toList rand with
  | .error err => (.error err, fs)
  | .ok (tempDir, fs1) =>
    let target := Join tempDir "application.yaz".toList
    match compress env.codec fs1 root target cipher with
    | (some err, fs2) => (.error err, fs2)
    | (none, fs2) => (.ok target, fs2)

/-- The function `PackTo`. -/
def PackTo (env : Env) (fs : FS) (root output : Path) (cipher : Option Cipher) :
    Option Err × FS :=
  if !statIsNotExist (Stat fs output) then (some .alreadyExists, fs)
  else compress env.codec fs root output cipher

/-- The function `Unpack`. -/
def Unpack (env : Env) (fs : FS) (file : Path) (cipher : Option Cipher) (rand : Nat) :
    Except Err Path × FS :=
  match TempDir fs env.tmp "unpack-".toList rand with
  | .error err => (.error err, fs)
  | .ok (tempDir, fs1) =>
    match uncompress env.codec fs1 file tempDir cipher with
    | (some err, fs2) => (.error err, fs2)
    | (none, fs2) => (.ok tempDir, fs2)

/-- The function `UnpackTo`. -/
def UnpackTo (env : Env) (fs : FS) (file output : Path) (cipher : Option Cipher) :
    Option Err × FS :=
  if !statIsNotExist (Stat fs output) then (some .alreadyExists, fs)
  else uncompress env.codec fs file output cipher

/-- The function `Compress`. -/
def Compress (env : Env) (fs : FS) (root : Path) (rand : Nat) : Except Err Path × FS :=
  match TempDir fs env.tmp "unpack-".toList rand with
  | .error err => (.error err, fs)
  | .ok (tempDir, fs1) =>
    let target := Join tempDir "application.yaz".toList
    match compress env.codec fs1 root target none with
    | (some err, fs2) => (.error err, fs2)
    | (none, fs2) => (.ok target, fs2)

/-- The function `CompressTo`. -/
def CompressTo (env : Env) (fs : FS) (root output : Path) : Option Err × FS :=
  if !statIsNotExist (Stat fs output) then (some .alreadyExists, fs)
  else
    match compress env.codec fs root output none with
    | (some err, fs2) => (some err, fs2)
    | (none, fs2) => (none, fs2)

/-- The function `UncompressTo`. -/
def UncompressTo (env : Env) (fs : FS) (file output : Path) : Option Err × FS :=
  if !statIsNotExist (Stat fs output) then (some .alreadyExists, fs)
  else uncompress env.codec fs file output none

/-! ## The overlay (yaz.go) -/

/-- The struct `Yaz`: the package file, the cipher, the extraction root. -/
structure Yaz where
  file : Path
  cipher : Option Cipher
  root : Path

/-- The method `abs`: `filepath.Join(yaz.root, root)` then `filepath.Abs`, which
cleans an absolute path and cannot fail on one. -/
def Yaz.abs (yaz : Yaz) (name : Str) : Path := Join yaz.root name

/-- The method `Write`: the error, with the overlay and the file system as they were. -/
def Yaz.Write (yaz : Yaz) (fs : FS) (_name : Str) (_content : Bytes) :
    Option Err × Yaz × FS :=
  (some .readOnly, yaz, fs)

/-- The method `Remove`. -/
def Yaz.Remove (yaz : Yaz) (fs : FS) (_name : Str) : Option Err × Yaz × FS :=
  (some .readOnly, yaz, fs)

/-- The method `Watch`; `H` and `I` stand for the handler and the interrupt channel. -/
def Yaz.Watch {H I : Type} (yaz : Yaz) (fs : FS) (_handler : H) (_interrupt : I) :
    Option Err × Yaz × FS :=
  (some .noWatch, yaz, fs)

/-- The method `Exists`. -/
def Yaz.Exists (yaz : Yaz) (fs : FS) (name : Str) : Except Err Bool :=
  match Stat fs (yaz.abs name) with
  | .ok _ => .ok true
  | .error .notExist => .ok false
  | .error err => .error err

/-! ## `filepath.Match` and `filepath.Clean` for Walk -/

/-- The scan of `scanChunk` after the leading stars: the chunk up to the next
star outside a character class, and the rest of the pattern. -/
def scanBody : Str → Bool → Str × Str
  | [], _ => ([], [])
  | c :: r, inrange =>
    if c = '\\' then
      match r with
      | [] => ([c], [])
      | d :: r2 => (c :: d :: (scanBody r2 inrange).1, (scanBody r2 inrange).2)
    else if c = '[' then (c :: (scanBody r true).1, (scanBody r true).2)
    else if c = ']' then (c :: (scanBody r false).1, (scanBody r false).2)
    else if c = '*' then
      (if inrange then (c :: (scanBody r inrange).1, (scanBody r inrange).2) else ([], c :: r))
    else (c :: (scanBody r inrange).1, (scanBody r inrange).2)

/-- The leading stars of a pattern removed; the flag tells whether there were any. -/
def dropStars : Str → Bool × Str
  | [] => (false, [])
  | c :: r => if c = '*' then (true, (dropStars r).2) else (false, c :: r)

/-- The helper `getEsc`: one possibly escaped character of a class; none is `ErrBadPattern`. -/
def getEsc (chunk : Str) : Option (Char × Str) :=
  match chunk with
  | [] => none
  | c :: r =>
    if c = '-' ∨ c = ']' then none
    else if c = '\\' then
      match r with
      | [] => none
      | d :: r2 => if r2 = [] then none else some (d, r2)
    else if r = [] then none else some (c, r)

/-- The range loop of a character class: whether `x` is in one of the ranges,
and the chunk after the closing bracket; none is `ErrBadPattern`. -/
def classLoop : Nat → Str → Char → Nat → Bool → Option (Bool × Str)
  | 0, _, _, _, _ => none
  | f + 1, chunk, x, nrange, m =>
    match chunk with
    | [] => none
    | c :: rest =>
      if c = ']' ∧ nrange > 0 then some (m, rest)
      else
        match getEsc (c :: rest) with
        | none => none
        | some (lo, ch1) =>
          match ch1 with
          | [] => none
          | d :: ch2 =>
            if d = '-' then
              match getEsc ch2 with
              | none => none
              | some (hi, ch3) =>
                classLoop f ch3 x (nrange + 1) (m || (decide (lo ≤ x) && decide (x ≤ hi)))
            else classLoop f (d :: ch2) x (nrange + 1) (m || decide (lo = x))

/-- The helper `matchChunk`: the rest of `s` after the chunk matched its beginning; none
when it does not match or the chunk is malformed. -/
def matchChunk : Str → Str → Option Str
  | [], s => some s
  | _ :: _, [] => none
  | c :: ch, x :: s =>
    if c = '[' then
      let neg := decide (ch.head? = some '^')
      let ch1 := if neg then ch.drop 1 else ch
      match classLoop (ch1.length + 1) ch1 x 0 false with
      | none => none
      | some (m, ch2) => if m = neg then none else matchChunk ch2 s
    else if c = '?' then (if x = '/' then none else matchChunk ch s)
    else if c = '\\' then
      match ch with
      | [] => none
      | d :: ch2 => if d = x then matchChunk ch2 s else none
    else if c = x then matchChunk ch s else none

/-- The search of `Match` after a star: skip characters other than the
separator until the chunk matches. -/
def starSearch (chunk : Str) (lastChunk : Bool) : Str → Option Str
  | [] => none
  | x :: s =>
    if x = '/' then none
    else
      match matchChunk chunk s with
      | some t => if lastChunk && decide (t ≠ []) then starSearch chunk lastChunk s else some t
      | none => starSearch chunk lastChunk s

/-- The loop of `filepath.Match`, chunk by chunk. -/
def matchLoop : Nat → Str → Str → Bool
  | 0, _, _ => false
  | f + 1, pattern, name =>
    if pattern = [] then decide (name = [])
    else
      let star := (dropStars pattern).1
      let chunk := (scanBody (dropStars pattern).2 false).1
      let rest := (scanBody (dropStars pattern).2 false).2
      if star && decide (chunk = []) then !name.contains '/'
      else
        match matchChunk chunk name with
        | some t =>
          if decide (t = []) || decide (rest ≠ []) then matchLoop f rest t
          else if star then
            match starSearch chunk (decide (rest = [])) name with
            | some t2 => matchLoop f rest t2
            | none => false
          else false
        | none =>
          if star then
            match starSearch chunk (decide (rest = [])) name with
            | some t2 => matchLoop f rest t2
            | none => false
          else false

/-- Go `filepath.Match` with its error dropped, as Walk calls it. -/
def Match (pattern name : Str) : Bool := matchLoop (pattern.length + 1) pattern name

/-- Go `filepath.Clean` of the components of an unrooted path. -/
def cleanRel (stack : List Str) : List Str → List Str
  | [] => stack
  | s :: rest =>
    if s = [] ∨ s = ['.'] then cleanRel stack rest
    else if s = ['.', '.'] then
      match stack.getLast? with
      | none => cleanRel [s] rest
      | some t =>
        if t = ['.', '.'] then cleanRel (stack ++ [s]) rest
        else cleanRel stack.dropLast rest
    else cleanRel (stack ++ [s]) rest

/-- Go `filepath.Clean`. -/
def Clean (p : Str) : Str :=
  match p with
  | [] => ['.']
  | c :: _ =>
    if c = '/' then render (cleanInto [] (splitSlash p))
    else
      match cleanRel [] (splitSlash p) with
      | [] => ['.']
      | segs => joinSegs segs

/-- Go `filepath.Join(a, b)` on strings. -/
def JoinStr (a b : Str) : Str :=
  if a ≠ [] then Clean (a ++ '/' :: b)
  else if b ≠ [] then Clean b
  else []

/-! ## `Yaz.Walk` -/

/-- The table `defaultPatterns` of yaz.go. -/
def defaultPatterns : List Str :=
  ["*.yao".toList, "*.json".toList, "*.jsonc".toList, "*.yaml".toList, "*.so".toList,
   "*.dll".toList, "*.js".toList, "*.py".toList, "*.ts".toList, "*.wasm".toList]

/-- The arguments of one handler call. -/
structure Visit where
  root : Str
  filename : Str
  isdir : Bool
deriving DecidableEq, Repr

/-- The name filter of the callback: true when the entry is dropped because
no pattern matches its base name. -/
def notMatched (patterns : List Str) (rootAbs : Path) (e : WalkEntry) : Bool :=
  if !e.isDir && decide (patterns.length > 0) && decide (patterns.head? ≠ some ['-']) then
    !patterns.any (fun pattern => Match pattern (Base (rootAbs ++ e.segs)))
  else false

/-- The display name of the callback: the file name with the resolved root
trimmed, the separator for the root directory itself. -/
def displayName (rootAbs : Path) (e : WalkEntry) : Str :=
  let name := TrimPrefix (render (rootAbs ++ e.segs)) (render rootAbs)
  if name = [] ∧ e.isDir then ['/'] else name

/-- The hidden test of the callback. -/
def hiddenName (name : Str) : Bool :=
  HasPrefix name ['.'] || HasPrefix name ['/', '.'] || HasPrefix name ['\\', '.']

/-- The callback of Walk up to the handler call: the arguments the handler
gets for the entry, none when the callback returns before calling it. -/
def walkFn (root : Str) (rootAbs : Path) (patterns : List Str) (e : WalkEntry) :
    Option Visit :=
  if notMatched patterns rootAbs e then none
  else if hiddenName (displayName rootAbs e) then none
  else if !e.isDir then some ⟨root, JoinStr root (displayName rootAbs e), e.isDir⟩
  else some ⟨root, displayName rootAbs e, e.isDir⟩

/-- The walk over the visited entries: the handler calls made, oldest first, and
the error that stopped the walk. -/
def walkLoop (root : Str) (rootAbs : Path) (patterns : List Str)
    (handler : Visit → Option Err) : List WalkEntry → Option Err × List Visit
  | [] => (none, [])
  | e :: rest =>
    match walkFn root rootAbs patterns e with
    | none => walkLoop root rootAbs patterns handler rest
    | some v =>
      match handler v with
      | some err => (some err, [v])
      | none =>
        ((walkLoop root rootAbs patterns handler rest).1,
          v :: (walkLoop root rootAbs patterns handler rest).2)

/-- The method `Walk`; `patterns` is none when the caller passes no pattern. -/
def Yaz.Walk (yaz : Yaz) (fs : FS) (root : Str) (handler : Visit → Option Err)
    (patterns : Option (List Str)) : Option Err × List Visit :=
  let rootAbs := yaz.abs root
  let pats := patterns.getD defaultPatterns
  match readTree (fs.length + 1) fs rootAbs with
  | none => (some .notExist, [])
  | some t => walkLoop root rootAbs pats handler (walkNode [] t)

/-! ## Specification-side notions and sample inputs -/

/-- The path `p` is the directory `root` or lies below it. -/
def within (root p : Path) : Bool := root.isPrefixOf p

/-- Reading the components of a relative name left to right from `depth`
components below the root, some `..` steps above the root. -/
def climbs : Nat → List Str → Bool
  | _, [] => false
  | d, s :: rest =>
    if s = [] ∨ s = ['.'] then climbs d rest
    else if s = ['.', '.'] then
      match d with
      | 0 => true
      | k + 1 => climbs k rest
    else climbs (d + 1) rest

/-- The text after the last dot of a name, none when it has no dot. -/
def afterLastDot : Str → Option Str
  | [] => none
  | c :: r =>
    match afterLastDot r with
    | some x => some x
    | none => if c = '.' then some r else none

/-- The first component begins with a dot. -/
def firstSegDot (segs : List Str) : Bool :=
  match segs with
  | (c :: _) :: _ => decide (c = '.')
  | _ => false

/-- The first component begins with a backslash followed by a dot. -/
def firstSegBackslashDot (segs : List Str) : Bool :=
  match segs with
  | (c :: d :: _) :: _ => decide (c = '\\') && decide (d = '.')
  | _ => false

/-- The payload compress is to write for the regular file `w`: the encryption of
its bytes when a cipher is given and the extension is eligible, its bytes otherwise. -/
def PayloadOK (cipher : Option Cipher) (root : Path) (w : WalkEntry) (payload : Bytes) : Prop :=
  match cipher with
  | some c =>
    if eligible (extOf (render (root ++ w.segs))) then c.Encrypt w.data = some payload
    else payload = w.data
  | none => payload = w.data

/-- The entry `e` is the one compress is to write for the visited entry `w`. -/
def Built (cipher : Option Cipher) (root : Path) (w : WalkEntry) (e : Entry) : Prop :=
  e.hdr = FileInfoHeader w ∧ (if w.isDir then e.payload = [] else PayloadOK cipher root w e.payload)

/-- The visited entries compress does not skip. -/
def kept (ws : List WalkEntry) : List WalkEntry :=
  ws.filter (fun w => !excluded (relPath w.segs))

/-- What the name filter and the hidden test of the callback compute on
well-formed names: a directory or a matching base name, a first component that
does not begin with a dot, and, under the root directory only, a first component
that does not begin with a backslash and a dot. -/
def visible (rootAbs : Path) (patterns : List Str) (w : WalkEntry) : Bool :=
  (w.isDir || patterns.any (fun pattern => Match pattern (Base (rootAbs ++ w.segs)))) &&
    !firstSegDot w.segs && !(decide (rootAbs = []) && firstSegBackslashDot w.segs)

/-- The condition of the claim as written: a directory or a matching base name,
and a first component that does not begin with a dot. -/
def visibleAsClaimed (rootAbs : Path) (patterns : List Str) (w : WalkEntry) : Bool :=
  (w.isDir || patterns.any (fun pattern => Match pattern (Base (rootAbs ++ w.segs)))) &&
    !firstSegDot w.segs

/-- A handler that accepts every entry. -/
def okHandler : Visit → Option Err := fun _ => none

/-- A file name: not empty, not `.` or `..`, free of the separator. -/
def validName (s : Str) : Bool :=
  decide (s ≠ []) && decide (s ≠ ['.']) && decide (s ≠ ['.', '.']) && !s.contains '/'

/-- The names of a directory listing. -/
def Forest.names : Forest → List Str
  | .nil => []
  | .cons name _ rest => name :: rest.names

mutual
/-- A well-formed tree: every listing is well formed. -/
def Node.WF : Node → Bool
  | .file _ => true
  | .dir kids => kids.WF
/-- A well-formed listing: file names, no name twice, well-formed children. -/
def Forest.WF : Forest → Bool
  | .nil => true
  | .cons name n rest => validName name && !rest.names.contains name && n.WF && rest.WF
end

/-- The entries of a walk below `rel`: their components extend `rel` by file names. -/
def Below (rel : List Str) (ws : List WalkEntry) : Prop :=
  ∀ w ∈ ws, ∃ suf, w.segs = rel ++ suf ∧ ∀ s ∈ suf, validName s = true

/-- The entries of the walk of a listing: below `rel` by a name of the listing. -/
def BelowNames (rel : List Str) (names : List Str) (ws : List WalkEntry) : Prop :=
  ∀ w ∈ ws, ∃ name ∈ names, ∃ suf, w.segs = rel ++ name :: suf ∧
    validName name = true ∧ ∀ s ∈ suf, validName s = true

/-- A length-preserving symmetric cipher: both directions reverse the bytes. -/
def demoCipher : Cipher := ⟨fun x => some x.reverse, fun x => some x.reverse⟩

/-- A symmetric cipher that lengthens its input by one byte. -/
def padCipher : Cipher := ⟨fun x => some (0 :: x), fun x => some x.tail⟩

/-- The source root of the samples. -/
def demoRoot : Path := ["src".toList]

/-- The container path of the samples. -/
def demoTarget : Path := ["tmp".toList, "pack-1".toList, "application.yaz".toList]

/-- The extraction root of the samples. -/
def demoDest : Path := ["tmp".toList, "unpack-1".toList]

/-- A file system with the temporary directories of the samples, both empty. -/
def demoFS : FS :=
  [(["tmp".toList], .dir), (["tmp".toList, "pack-1".toList], .dir),
   (["tmp".toList, "unpack-1".toList], .dir)]

/-- A tree with the files `a.json` and `a.json.dec`. -/
def collideTree : Node :=
  .dir (.cons "a.json".toList (.file [1, 2, 3]) (.cons "a.json.dec".toList (.file [9]) .nil))

/-- A listing with a `data` directory, a `.git` directory and `.gitignore`. -/
def policyKids : Forest :=
  .cons ".git".toList (.dir (.cons "config".toList (.file [7]) .nil))
    (.cons ".gitignore".toList (.file [8])
      (.cons "data".toList (.dir (.cons "app.db".toList (.file [1, 2]) .nil))
        (.cons "main.so".toList (.file [4, 5])
          (.cons "model.json".toList (.file [5, 6, 7]) .nil))))

/-- A tree with a top-level `data` directory, `.git` directory and `.gitignore`. -/
def policyTree : Node := .dir policyKids

/-- The tree of the Walk example: `a.json`, `a.yao`, `.git/config` and `sub/b.json`. -/
def walkTree : Node :=
  .dir (.cons ".git".toList (.dir (.cons "config".toList (.file [1]) .nil))
    (.cons "a.json".toList (.file [2])
      (.cons "a.yao".toList (.file [3])
        (.cons "sub".toList (.dir (.cons "b.json".toList (.file [4]) .nil)) .nil))))

/-- An overlay on the extraction root of the samples. -/
def demoYaz : Yaz := ⟨demoTarget, some demoCipher, demoDest⟩

/-- The code of a type flag in the sample serialisation. -/
def flagCode : Typeflag → Nat
  | .TypeReg => 0
  | .TypeDir => 5
  | .other c => c + 6

/-- The type flag of a code. -/
def codeFlag (n : Nat) : Typeflag :=
  if n = 0 then .TypeReg else if n = 5 then .TypeDir else .other (n - 6)

/-- One entry of the sample serialisation: the length of the name, the name, the
flag, the size, the length of the payload, the payload. -/
def encodeEntry (e : Entry) : Bytes :=
  e.hdr.Name.length :: (e.hdr.Name.map Char.toNat ++
    (flagCode e.hdr.Typeflag :: e.hdr.Size :: e.payload.length :: e.payload))

/-- The decoder of the sample serialisation; the fuel bounds the number of entries. -/
def decodeEntries : Nat → Bytes → Except Err (List Entry)
  | _, [] => .ok []
  | 0, _ :: _ => .error .badArchive
  | f + 1, n :: rest =>
    match rest.drop n with
    | flag :: size :: plen :: body =>
      if body.length < plen then .error .badArchive
      else
        match decodeEntries f (body.drop plen) with
        | .error err => .error err
        | .ok es =>
          .ok (⟨⟨(rest.take n).map Char.ofNat, codeFlag flag, size⟩, body.take plen⟩ :: es)
    | _ => .error .badArchive

/-- A sample serialisation of a stream into bytes. -/
def demoCodec : Codec :=
  ⟨fun es => (es.map encodeEntry).flatten, fun b => decodeEntries b.length b⟩

/-- The surroundings of the samples. -/
def demoEnv : Env := ⟨demoCodec, ["tmp".toList]⟩

/-- The stream compress writes for `collideTree` under `demoCipher`. -/
def collideEntries : List Entry :=
  [⟨⟨".".toList, .TypeDir, 0⟩, []⟩,
   ⟨⟨"a.json".toList, .TypeReg, 3⟩, [3, 2, 1]⟩,
   ⟨⟨"a.json.dec".toList, .TypeReg, 1⟩, [9]⟩]

/-- The sample file system with one more file, named backslash-dot-x, in the
root directory. -/
def backslashFS : FS := demoFS ++ [([['\\', '.', 'x']], .file [2])]

/-- A file system with `/tmp` and a source directory `/src` holding `a.json` and
`a.json.dec`. -/
def srcFS : FS :=
  [(["tmp".toList], .dir), (["src".toList], .dir),
   (["src".toList, "a.json".toList], .file [1, 2, 3]),
   (["src".toList, "a.json.dec".toList], .file [9])]

/-! # Theorems -/

/-! ## Path resolution (C6) -/

/-- A name that never steps above the directory it is joined to stays below it. -/
theorem cleanInto_within (base : Path) :
    ∀ (segs : List Str) (extra : Path), climbs extra.length segs = false →
      base <+: cleanInto (base ++ extra) segs := by
  intro segs
  induction segs with
  | nil => intro extra _; simp [cleanInto]
  | cons s rest ih =>
    intro extra h
    unfold cleanInto
    unfold climbs at h
    by_cases h1 : s = [] ∨ s = ['.']
    · simp only [h1, if_true] at h ⊢
      exact ih extra h
    · simp only [h1, if_false] at h ⊢
      by_cases h2 : s = ['.', '.']
      · simp only [h2, if_true] at h ⊢
        cases extra using List.reverseRecOn with
        | nil => simp at h
        | append_singleton ex x =>
          simp only [List.length_append, List.length_singleton] at h
          rw [← List.append_assoc, List.dropLast_concat]
          exact ih ex h
      · simp only [h2, if_false] at h ⊢
        rw [List.append_assoc]
        apply ih
        simpa using h

/-- C6 (counterexample): on the overlay rooted at `/tmp/unpack-1` the name
`../pack-1/application.yaz` resolves to `/tmp/pack-1/application.yaz`, which is
neither the extraction root nor below it. -/
theorem abs_escapes_root :
    within demoYaz.root (demoYaz.abs "../pack-1/application.yaz".toList) = false ∧
    demoYaz.abs "../pack-1/application.yaz".toList = demoTarget := by decide

/-- C6 (amended): for every overlay and every relative name whose components,
read left to right, never step above the extraction root with `..`, the path
`abs` returns is the extraction root or a path below it. -/
theorem abs_within_root (yaz : Yaz) (name : Str)
    (h : climbs 0 (splitSlash name) = false) : within yaz.root (yaz.abs name) = true := by
  have := cleanInto_within yaz.root (splitSlash name) [] (by simpa using h)
  simpa [within, Yaz.abs, Join] using this

/-- The amended C6 on `models/../apis/user.json`. -/
theorem abs_within_root_witness :
    climbs 0 (splitSlash "models/../apis/user.json".toList) = false ∧
    within demoYaz.root (demoYaz.abs "models/../apis/user.json".toList) = true :=
  ⟨by decide, abs_within_root demoYaz _ (by decide)⟩

/-! ## Read-only overlay (C10) and the destination guard (C9) -/

/-- C10: for every overlay, file system and arguments, `Write`, `Remove` and
`Watch` return an error and hand back the overlay and the file system unchanged. -/
theorem readonly_ops {H I : Type} (yaz : Yaz) (fs : FS) (name : Str) (content : Bytes)
    (handler : H) (interrupt : I) :
    (∃ err, yaz.Write fs name content = (some err, yaz, fs)) ∧
    (∃ err, yaz.Remove fs name = (some err, yaz, fs)) ∧
    (∃ err, yaz.Watch fs handler interrupt = (some err, yaz, fs)) :=
  ⟨⟨_, rfl⟩, ⟨_, rfl⟩, ⟨_, rfl⟩⟩

/-- C9: when the destination path exists, each of `PackTo`, `UnpackTo`,
`CompressTo` and `UncompressTo` returns an error and leaves the file system as
it was; compress and uncompress are not reached. -/
theorem to_variants_guard (env : Env) (fs : FS) (root file output : Path)
    (cipher : Option Cipher) (n : FNode) (h : Stat fs output = .ok n) :
    PackTo env fs root output cipher = (some .alreadyExists, fs) ∧
    UnpackTo env fs file output cipher = (some .alreadyExists, fs) ∧
    CompressTo env fs root output = (some .alreadyExists, fs) ∧
    UncompressTo env fs file output = (some .alreadyExists, fs) := by
  simp [PackTo, UnpackTo, CompressTo, UncompressTo, h, statIsNotExist]

/-- C9 on the existing directory `/tmp/unpack-1`. -/
theorem to_variants_guard_witness :
    Stat demoFS demoDest = .ok .dir ∧
    PackTo demoEnv demoFS demoRoot demoDest (some demoCipher) = (some .alreadyExists, demoFS) ∧
    UnpackTo demoEnv demoFS demoTarget demoDest (some demoCipher)
      = (some .alreadyExists, demoFS) ∧
    CompressTo demoEnv demoFS demoRoot demoDest = (some .alreadyExists, demoFS) ∧
    UncompressTo demoEnv demoFS demoTarget demoDest = (some .alreadyExists, demoFS) :=
  ⟨rfl, to_variants_guard demoEnv demoFS demoRoot demoTarget demoDest (some demoCipher)
    .dir rfl⟩

/-! ## Exclusion policy on the paths of the walk (C4) -/

/-- C4 (evaluation): the walk hands compress `data`, `data/app.db`, `db`, `logs`,
`tmp` and `vendor` without a leading separator, the exclusion test is false on
each of them, and the `data` directory of the sample tree is written to the
container together with the file below it. -/
theorem toplevel_dirs_not_excluded :
    excluded (relPath ["data".toList]) = false ∧
    excluded (relPath ["data".toList, "app.db".toList]) = false ∧
    excluded (relPath ["db".toList]) = false ∧
    excluded (relPath ["logs".toList]) = false ∧
    excluded (relPath ["tmp".toList]) = false ∧
    excluded (relPath ["vendor".toList]) = false ∧
    (buildEntries none demoRoot demoTarget demoFS policyTree).toOption =
      some [⟨⟨".".toList, .TypeDir, 0⟩, []⟩,
            ⟨⟨"data".toList, .TypeDir, 0⟩, []⟩,
            ⟨⟨"data/app.db".toList, .TypeReg, 2⟩, [1, 2]⟩,
            ⟨⟨"main.so".toList, .TypeReg, 2⟩, [4, 5]⟩,
            ⟨⟨"model.json".toList, .TypeReg, 3⟩, [5, 6, 7]⟩] := by decide

/-! ## Round trip and intermediate files on colliding names (C1, C8) -/

/-- C1 (evaluation): the source directory `/src` holds the regular files `a.json`
and `a.json.dec`. Under the symmetric, length-preserving `demoCipher`, `Pack`
succeeds, `Unpack` of the container with the same cipher succeeds, `a.json` comes
back with its bytes, and `a.json.dec` does not exist in the destination. -/
theorem roundtrip_drops_colliding_file :
    demoCipher.Symmetric ∧
    srcFS.stat (demoRoot ++ ["a.json".toList]) = some (.file [1, 2, 3]) ∧
    srcFS.stat (demoRoot ++ ["a.json.dec".toList]) = some (.file [9]) ∧
    (Pack demoEnv srcFS demoRoot (some demoCipher) 1).1.toOption = some demoTarget ∧
    (Unpack demoEnv (Pack demoEnv srcFS demoRoot (some demoCipher) 1).2 demoTarget
      (some demoCipher) 1).1.toOption = some demoDest ∧
    (Unpack demoEnv (Pack demoEnv srcFS demoRoot (some demoCipher) 1).2 demoTarget
      (some demoCipher) 1).2.stat (demoDest ++ ["a.json".toList]) = some (.file [1, 2, 3]) ∧
    (Unpack demoEnv (Pack demoEnv srcFS demoRoot (some demoCipher) 1).2 demoTarget
      (some demoCipher) 1).2.stat (demoDest ++ ["a.json.dec".toList]) = none := by
  refine ⟨?_, by decide⟩
  intro x
  exact ⟨x.reverse, rfl, by simp [demoCipher]⟩

/-- A symmetric cipher that lengthens its input makes the build fail: the header
announces the plaintext length and the tar writer refuses the longer payload. -/
theorem build_fails_on_lengthening_cipher :
    padCipher.Symmetric ∧
    buildEntries (some padCipher) demoRoot demoTarget demoFS policyTree
      = .error .writeTooLong := by
  refine ⟨?_, rfl⟩
  intro x
  exact ⟨0 :: x, rfl, rfl⟩

/-- C8 (evaluation): the eligible files `x/a.json` and `y/a.json` get the same
intermediate path in compress and in uncompress; the intermediate path of
`a.json` is the destination path of the entry `a.json.dec`; and on the stream
compress writes for the tree with `a.json` and `a.json.dec`, after the loop of
uncompress has extracted `a.json.dec` with its byte, the deferred removal of
that intermediate path deletes it. -/
theorem intermediate_paths_collide :
    (buildEntries (some demoCipher) demoRoot demoTarget demoFS collideTree).toOption
      = some collideEntries ∧
    encryptFile demoTarget (demoRoot ++ ["x".toList, "a.json".toList])
      = encryptFile demoTarget (demoRoot ++ ["y".toList, "a.json".toList]) ∧
    decryptFile demoDest (Join demoDest "x/a.json".toList)
      = decryptFile demoDest (Join demoDest "y/a.json".toList) ∧
    decryptFile demoDest (Join demoDest "a.json".toList) = Join demoDest "a.json.dec".toList ∧
    (uncompressLoop (some demoCipher) demoDest collideEntries ⟨demoFS, []⟩).1 = none ∧
    (uncompressLoop (some demoCipher) demoDest collideEntries ⟨demoFS, []⟩).2.deferred
      = [Join demoDest "a.json.dec".toList] ∧
    (uncompressLoop (some demoCipher) demoDest collideEntries ⟨demoFS, []⟩).2.fs.stat
      (Join demoDest "a.json.dec".toList) = some (.file [9]) ∧
    (runDeferred (uncompressLoop (some demoCipher) demoDest collideEntries ⟨demoFS, []⟩).2.fs
      (uncompressLoop (some demoCipher) demoDest collideEntries ⟨demoFS, []⟩).2.deferred).stat
      (Join demoDest "a.json.dec".toList) = none := by decide

/-! ## The tar writer under the callback of compress -/

theorem writeHeader_ok {tw tw1 : TarWriter} {h : Header} (hw : tw.WriteHeader h = .ok tw1) :
    tw1.rev = ⟨h, []⟩ :: tw.rev := by
  unfold TarWriter.WriteHeader at hw
  split at hw
  · cases hw
  · cases hw; rfl

theorem write_ok {tw tw2 : TarWriter} {h : Header} {r : List Entry} {b : Bytes}
    (hr : tw.rev = ⟨h, []⟩ :: r) (hw : tw.Write b = (none, tw2)) : tw2.rev = ⟨h, b⟩ :: r := by
  unfold TarWriter.Write at hw
  rw [hr] at hw
  simp only [Prod.mk.injEq] at hw
  obtain ⟨h1, h2⟩ := hw
  have hle : b.length ≤ h.Size := by
    by_contra hc
    simp only [List.length_nil, Nat.sub_zero] at h1
    rw [if_pos (by omega)] at h1
    cases h1
  rw [← h2]
  simp [List.take_of_length_le hle]

theorem write_hdrs (tw : TarWriter) (b : Bytes) :
    (tw.Write b).2.rev.map Entry.hdr = tw.rev.map Entry.hdr := by
  unfold TarWriter.Write
  split
  · rename_i heq; simp [heq]
  · rename_i e rest heq; simp [heq]

theorem copyPlain_ok {tw : TarWriter} {fs : FS} {data : Bytes} {st : BuildState}
    (h : copyPlain tw fs data = (none, st)) : tw.Write data = (none, st.tw) := by
  unfold copyPlain at h
  split at h
  · cases h
  · rename_i tw2 heq
    cases h
    exact heq

theorem copyPlain_tw (tw : TarWriter) (fs : FS) (data : Bytes) :
    (copyPlain tw fs data).2.tw.rev.map Entry.hdr = tw.rev.map Entry.hdr := by
  have hw := write_hdrs tw data
  unfold copyPlain
  split
  · rename_i err tw2 heq
    rw [heq] at hw
    exact hw
  · rename_i tw2 heq
    rw [heq] at hw
    exact hw

theorem readFile_writeFile (fs : FS) (p : Path) (d : Bytes) :
    readFile (writeFile fs p d) p = .ok d ∨ readFile (writeFile fs p d) p = .error .isDir := by
  unfold readFile writeFile FS.put FS.stat
  by_cases hp : p = []
  · right; simp [hp]
  · left; simp [hp, FS.find]

theorem copyEncrypted_ok {c : Cipher} {tw : TarWriter} {fs : FS} {ef : Path} {data : Bytes}
    {st : BuildState} (h : copyEncrypted c tw fs ef data = (none, st)) :
    ∃ enc, c.Encrypt data = some enc ∧ tw.Write enc = (none, st.tw) := by
  unfold copyEncrypted at h
  split at h
  · cases h
  · rename_i fs1 _
    split at h
    · cases h
    · rename_i enc henc
      simp only at h
      rcases readFile_writeFile fs1 ef enc with hrf | hrf
      · rw [hrf] at h
        simp only at h
        split at h
        · cases h
        · rename_i tw2 hw
          cases h
          exact ⟨enc, henc, hw⟩
      · rw [hrf] at h
        cases h

theorem copyEncrypted_tw (c : Cipher) (tw : TarWriter) (fs : FS) (ef : Path) (data : Bytes) :
    (copyEncrypted c tw fs ef data).2.tw.rev.map Entry.hdr = tw.rev.map Entry.hdr := by
  unfold copyEncrypted
  split
  · rfl
  · split
    · rfl
    · simp only
      split
      · rfl
      · rename_i back _
        have hw := write_hdrs tw back
        split
        · rename_i err tw2 heq
          rw [heq] at hw
          exact hw
        · rename_i tw2 heq
          rw [heq] at hw
          exact hw

theorem compressFn_ok {cipher : Option Cipher} {root target : Path} {w : WalkEntry}
    {st st1 : BuildState} (h : compressFn cipher root target w st = (none, st1)) :
    (excluded (relPath w.segs) = true ∧ st1 = st) ∨
    (excluded (relPath w.segs) = false ∧
      ∃ en, st1.tw.rev = en :: st.tw.rev ∧ Built cipher root w en) := by
  unfold compressFn at h
  by_cases hex : excluded (relPath w.segs) = true
  · left
    simp only [hex, if_true] at h
    cases h
    exact ⟨hex, rfl⟩
  · right
    have hex2 : excluded (relPath w.segs) = false := by simpa using hex
    refine ⟨hex2, ?_⟩
    simp only [hex2, Bool.false_eq_true, if_false] at h
    split at h
    · cases h
    · rename_i tw1 hwh
      have hrev := writeHeader_ok hwh
      by_cases hd : w.isDir = true
      · simp only [hd, if_true] at h
        cases h
        exact ⟨_, hrev, rfl, by simp [hd]⟩
      · have hd2 : w.isDir = false := by simpa using hd
        simp only [hd2, Bool.false_eq_true, if_false] at h
        have plain : ∀ {st1 : BuildState}, copyPlain tw1 st.fs w.data = (none, st1) →
            st1.tw.rev = ⟨FileInfoHeader w, w.data⟩ :: st.tw.rev := fun hc =>
          write_ok hrev (copyPlain_ok hc)
        cases cipher with
        | none =>
          simp only at h
          exact ⟨_, plain h, rfl, by simp [hd2, PayloadOK]⟩
        | some c =>
          simp only at h
          by_cases hel : eligible (extOf (render (root ++ w.segs))) = true
          · simp only [hel, if_true] at h
            obtain ⟨enc, henc, hw⟩ := copyEncrypted_ok h
            exact ⟨_, write_ok hrev hw, rfl, by simp [hd2, PayloadOK, hel, henc]⟩
          · simp only [hel, if_false] at h
            exact ⟨_, plain h, rfl, by simp [hd2, PayloadOK, hel]⟩

theorem compressFn_hdrs (cipher : Option Cipher) (root target : Path) (w : WalkEntry)
    (st : BuildState) :
    (compressFn cipher root target w st).2.tw.rev.map Entry.hdr = st.tw.rev.map Entry.hdr ∨
    (excluded (relPath w.segs) = false ∧
      (compressFn cipher root target w st).2.tw.rev.map Entry.hdr
        = FileInfoHeader w :: st.tw.rev.map Entry.hdr) := by
  unfold compressFn
  by_cases hex : excluded (relPath w.segs) = true
  · left; simp [hex]
  · have hex2 : excluded (relPath w.segs) = false := by simpa using hex
    simp only [hex2, Bool.false_eq_true, if_false]
    split
    · left; rfl
    · rename_i tw1 hwh
      have hrev := writeHeader_ok hwh
      right
      refine ⟨trivial, ?_⟩
      have hh : tw1.rev.map Entry.hdr = FileInfoHeader w :: st.tw.rev.map Entry.hdr := by
        simp [hrev]
      by_cases hd : w.isDir = true
      · simp [hd, hh]
      · have hd2 : w.isDir = false := by simpa using hd
        simp only [hd2, Bool.false_eq_true, if_false]
        cases cipher with
        | none => simp only; rw [copyPlain_tw, hh]
        | some c =>
          simp only
          split
          · rw [copyEncrypted_tw, hh]
          · rw [copyPlain_tw, hh]

theorem compressWalk_ok {cipher : Option Cipher} {root target : Path} :
    ∀ (ws : List WalkEntry) (st st1 : BuildState),
      compressWalk cipher root target ws st = (none, st1) →
      ∃ new, st1.tw.rev = new.reverse ++ st.tw.rev ∧
        List.Forall₂ (Built cipher root) (kept ws) new := by
  intro ws
  induction ws with
  | nil =>
    intro st st1 h
    simp only [compressWalk] at h
    cases h
    exact ⟨[], by simp, by simp [kept]⟩
  | cons w rest ih =>
    intro st st1 h
    simp only [compressWalk] at h
    split at h
    · cases h
    · rename_i st2 hstep
      obtain ⟨new, hnew, hall⟩ := ih st2 st1 h
      rcases compressFn_ok hstep with ⟨hex, hst⟩ | ⟨hex, en, hen, hb⟩
      · subst hst
        exact ⟨new, hnew, by simpa [kept, hex] using hall⟩
      · refine ⟨en :: new, by simp [hnew, hen], ?_⟩
        simpa [kept, hex] using List.Forall₂.cons hb hall

theorem compressWalk_hdrs {cipher : Option Cipher} {root target : Path} :
    ∀ (ws : List WalkEntry) (st : BuildState),
      (∀ h ∈ st.tw.rev.map Entry.hdr, excluded h.Name = false) →
      ∀ h ∈ (compressWalk cipher root target ws st).2.tw.rev.map Entry.hdr,
        excluded h.Name = false := by
  intro ws
  induction ws with
  | nil => intro st hst; simpa [compressWalk] using hst
  | cons w rest ih =>
    intro st hst
    have hstep : ∀ h ∈ (compressFn cipher root target w st).2.tw.rev.map Entry.hdr,
        excluded h.Name = false := by
      rcases compressFn_hdrs cipher root target w st with heq | ⟨hex, heq⟩
      · rw [heq]; exact hst
      · rw [heq]
        intro h hh
        rcases List.mem_cons.mp hh with rfl | hh
        · unfold FileInfoHeader; split <;> exact hex
        · exact hst h hh
    simp only [compressWalk]
    split
    · rename_i err st2 heq
      rw [heq] at hstep
      exact hstep
    · rename_i st2 heq
      rw [heq] at hstep
      exact ih st2 hstep

/-! ## Exclusion and extension lemmas -/

theorem excluded_append {p : Str} (q : Str) (h : excluded p = true) :
    excluded (p ++ q) = true := by
  unfold excluded at *
  rw [List.any_eq_true] at *
  obtain ⟨ig, hig, hp⟩ := h
  refine ⟨ig, hig, ?_⟩
  unfold HasPrefix at *
  rw [List.isPrefixOf_iff_prefix] at *
  exact hp.trans (List.prefix_append p q)

theorem extScan_stop (rest : List Char) :
    ∀ (l acc : List Char), '/' ∉ l → extScan (l ++ '/' :: rest) acc = extScan l acc := by
  intro l
  induction l with
  | nil => intro acc _; simp [extScan]
  | cons c l ih =>
    intro acc h
    have hc : c ≠ '/' := fun hc => h (by simp [hc])
    have hl : '/' ∉ l := fun hl => h (by simp [hl])
    simp only [List.cons_append, extScan, hc, if_false]
    split
    · rfl
    · exact ih _ hl

theorem Ext_last (pre name : Str) (h : '/' ∉ name) : Ext (pre ++ '/' :: name) = Ext name := by
  unfold Ext
  rw [List.reverse_append, List.reverse_cons, List.append_assoc]
  simpa using extScan_stop pre.reverse name.reverse [] (by simpa using h)

theorem afterLastDot_concat (l : Str) (c : Char) :
    afterLastDot (l ++ [c]) =
      if c = '.' then some [] else (afterLastDot l).map (fun x => x ++ [c]) := by
  induction l with
  | nil => by_cases hc : c = '.' <;> simp [afterLastDot, hc]
  | cons d l ih =>
    have e1 : afterLastDot (d :: (l ++ [c])) = match afterLastDot (l ++ [c]) with
        | some x => some x
        | none => if d = '.' then some (l ++ [c]) else none := rfl
    have e2 : afterLastDot (d :: l) = match afterLastDot l with
        | some x => some x
        | none => if d = '.' then some l else none := rfl
    rw [List.cons_append, e1, e2, ih]
    by_cases hc : c = '.'
    · simp [hc]
    · cases afterLastDot l with
      | none => by_cases hd : d = '.' <;> simp [hc, hd]
      | some x => simp [hc]

theorem extScan_afterLastDot :
    ∀ (l acc : List Char), '/' ∉ l →
      extScan l.reverse acc = match afterLastDot l with
        | some x => '.' :: (x ++ acc)
        | none => [] := by
  intro l
  induction l using List.reverseRecOn with
  | nil => intro acc _; simp [extScan, afterLastDot]
  | append_singleton l c ih =>
    intro acc h
    have hc : c ≠ '/' := fun hc => h (by simp [hc])
    have hl : '/' ∉ l := fun hl => h (by simp [hl])
    rw [List.reverse_append, List.reverse_singleton, List.singleton_append, afterLastDot_concat]
    simp only [extScan, hc, if_false]
    by_cases hd : c = '.'
    · simp [hd]
    · simp only [hd, if_false]
      rw [ih _ hl]
      cases afterLastDot l <;> simp

theorem extOf_name (name : Str) (h : '/' ∉ name) :
    extOf name = (afterLastDot name).getD [] := by
  unfold extOf Ext
  rw [extScan_afterLastDot name [] h]
  cases afterLastDot name <;> simp [TrimPrefix]

theorem joinSegs_concat (l : List Str) (name : Str) (hl : l ≠ []) :
    joinSegs (l ++ [name]) = joinSegs l ++ '/' :: name := by
  induction l with
  | nil => exact absurd rfl hl
  | cons s rest ih =>
    cases rest with
    | nil => simp [joinSegs]
    | cons t rest2 =>
      have := ih (by simp)
      simp only [List.cons_append] at this ⊢
      simp [joinSegs, this]

theorem extOf_render (pre : Path) (name : Str) (h : '/' ∉ name) :
    extOf (render (pre ++ [name])) = extOf name := by
  unfold extOf render
  by_cases hp : pre = []
  · subst hp
    have := Ext_last [] name h
    simp only [List.nil_append] at this
    simp [joinSegs, this]
  · rw [joinSegs_concat pre name hp, ← List.cons_append, Ext_last _ _ h]

/-- C3: no entry compress writes for a tree has a path that starts with an
element of `ignores`, and no written entry has a path that extends a path
starting with one (so everything nested under a matching entry is omitted);
this holds for the stream of a run that stops on an error as well. -/
theorem written_entries_not_excluded (cipher : Option Cipher) (root target : Path) (fs : FS)
    (t : Node) (e : Entry)
    (he : e ∈ (compressWalk cipher root target (walkNode [] t) ⟨⟨[]⟩, fs⟩).2.tw.stream) :
    (∀ ig ∈ ignores, HasPrefix e.hdr.Name ig = false) ∧
    (∀ p q, e.hdr.Name = p ++ q → excluded p = false) := by
  have hinv := @compressWalk_hdrs cipher root target
    (walkNode [] t) ⟨⟨[]⟩, fs⟩ (by simp) e.hdr
    (by
      unfold TarWriter.stream at he
      exact List.mem_map_of_mem _ (List.mem_reverse.mp he))
  constructor
  · intro ig hig
    unfold excluded at hinv
    by_contra hc
    have hc2 : HasPrefix e.hdr.Name ig = true := by simpa using hc
    have : (ignores.any fun ig => HasPrefix e.hdr.Name ig) = true :=
      List.any_eq_true.mpr ⟨ig, hig, hc2⟩
    rw [this] at hinv
    cases hinv
  · intro p q hpq
    by_contra hc
    have hc2 : excluded p = true := by simpa using hc
    have := excluded_append q hc2
    rw [← hpq, hinv] at this
    cases this

/-- C3 on the sample tree: `model.json` is written, `.git/config` is not. -/
theorem written_entries_not_excluded_witness :
    (⟨⟨"model.json".toList, .TypeReg, 3⟩, [7, 6, 5]⟩ : Entry) ∈
      (compressWalk (some demoCipher) demoRoot demoTarget (walkNode [] policyTree)
        ⟨⟨[]⟩, demoFS⟩).2.tw.stream ∧
    (∀ ig ∈ ignores, HasPrefix "model.json".toList ig = false) ∧
    (∀ p q, "model.json".toList = p ++ q → excluded p = false) :=
  ⟨by decide, written_entries_not_excluded (some demoCipher) demoRoot demoTarget demoFS
    policyTree ⟨⟨"model.json".toList, .TypeReg, 3⟩, [7, 6, 5]⟩ (by decide)⟩

/-- C5: when compress succeeds on a tree, the entries it wrote are, in walk
order, exactly one per visited entry that is not excluded, each with the header
of that entry; the payload of a regular file is `Encrypt` of its bytes when a
cipher was given and the extension is eligible, and its bytes otherwise. The
extension is the text after the last dot of the last path component, looked up
as it is in `encryptFiles`: `so` and `JSON` are not in the set, `json` is. -/
theorem regular_file_payload (cipher : Option Cipher) (root target : Path) (fs : FS)
    (t : Node) (es : List Entry)
    (hb : buildEntries cipher root target fs t = .ok es) :
    List.Forall₂ (Built cipher root) (kept (walkNode [] t)) es ∧
    (∀ (pre : Path) (name : Str), '/' ∉ name →
      extOf (render (pre ++ [name])) = (afterLastDot name).getD []) ∧
    (∀ ext, eligible ext = true ↔ ext ∈ encryptFiles) ∧
    eligible "so".toList = false ∧ eligible "JSON".toList = false ∧
    eligible "json".toList = true := by
  refine ⟨?_, ?_, ?_, by decide, by decide, by decide⟩
  · unfold buildEntries at hb
    split at hb
    · cases hb
    · rename_i st hst
      cases hb
      obtain ⟨new, hnew, hall⟩ := compressWalk_ok _ _ _ hst
      simp only [List.append_nil] at hnew
      simpa [TarWriter.stream, hnew] using hall
  · intro pre name h
    rw [extOf_render pre name h, extOf_name name h]
  · intro ext
    simp [eligible]

/-- C5 on the sample tree under `demoCipher`: `main.so` keeps its bytes,
`model.json` is stored encrypted. -/
theorem regular_file_payload_witness :
    List.Forall₂ (Built (some demoCipher) demoRoot) (kept (walkNode [] policyTree))
      [⟨⟨".".toList, .TypeDir, 0⟩, []⟩,
       ⟨⟨"data".toList, .TypeDir, 0⟩, []⟩,
       ⟨⟨"data/app.db".toList, .TypeReg, 2⟩, [1, 2]⟩,
       ⟨⟨"main.so".toList, .TypeReg, 2⟩, [4, 5]⟩,
       ⟨⟨"model.json".toList, .TypeReg, 3⟩, [7, 6, 5]⟩] :=
  (regular_file_payload (some demoCipher) demoRoot demoTarget demoFS policyTree _ rfl).1

/-! ## The display name of Walk -/

theorem joinSegs_append (a b : List Str) (ha : a ≠ []) (hb : b ≠ []) :
    joinSegs (a ++ b) = joinSegs a ++ '/' :: joinSegs b := by
  induction a with
  | nil => exact absurd rfl ha
  | cons s rest ih =>
    cases rest with
    | nil =>
      cases b with
      | nil => exact absurd rfl hb
      | cons t b2 => simp [joinSegs]
    | cons t rest2 =>
      have := ih (by simp)
      simp only [List.cons_append] at this ⊢
      simp [joinSegs, this]

theorem TrimPrefix_append (a b : Str) : TrimPrefix (a ++ b) a = b := by
  unfold TrimPrefix
  have : a.isPrefixOf (a ++ b) = true := by
    rw [List.isPrefixOf_iff_prefix]; exact List.prefix_append a b
  simp [this]

theorem trimmed_eq (rootAbs : Path) (segs : List Str) (hs : segs ≠ []) :
    TrimPrefix (render (rootAbs ++ segs)) (render rootAbs) =
      if rootAbs = [] then joinSegs segs else '/' :: joinSegs segs := by
  by_cases hr : rootAbs = []
  · subst hr
    simp [TrimPrefix, render, joinSegs]
  · simp only [hr, if_false]
    have : render (rootAbs ++ segs) = render rootAbs ++ '/' :: joinSegs segs := by
      unfold render
      rw [joinSegs_append rootAbs segs hr hs]
      rfl
    rw [this, TrimPrefix_append]

theorem joinSegs_head (c : Char) (s : Str) (rest : List Str) :
    ∃ tl, joinSegs ((c :: s) :: rest) = c :: tl ∧
      (∀ d, tl.head? = some d → d ≠ '/' → s.head? = some d) ∧
      (∀ d, s.head? = some d → tl.head? = some d) := by
  cases rest with
  | nil => exact ⟨s, by simp [joinSegs], fun d h _ => h, fun d h => h⟩
  | cons t rest2 =>
    refine ⟨s ++ '/' :: joinSegs (t :: rest2), by simp [joinSegs], ?_, ?_⟩
    · intro d h hd
      cases s with
      | nil =>
        simp only [List.nil_append, List.head?_cons, Option.some.injEq] at h
        exact absurd h.symm hd
      | cons x s2 => simpa using h
    · intro d h
      cases s with
      | nil => simp at h
      | cons x s2 => simpa using h

theorem beq_char (a c : Char) : (a == c) = decide (c = a) := by
  by_cases h : c = a
  · subst h; simp
  · have : a ≠ c := fun e => h e.symm
    simp [h, this]

theorem hiddenName_display (rootAbs : Path) (w : WalkEntry)
    (hv : ∀ s ∈ w.segs, s ≠ [] ∧ '/' ∉ s) :
    hiddenName (displayName rootAbs w) =
      (firstSegDot w.segs || (decide (rootAbs = []) && firstSegBackslashDot w.segs)) := by
  unfold displayName
  cases hsegs : w.segs with
  | nil =>
    have : TrimPrefix (render (rootAbs ++ [])) (render rootAbs) = [] := by
      have := TrimPrefix_append (render rootAbs) []
      simpa using this
    simp only [this, true_and]
    cases w.isDir with
    | false => simp [hiddenName, HasPrefix, firstSegDot, firstSegBackslashDot]
    | true =>
      simp [hiddenName, HasPrefix, firstSegDot, firstSegBackslashDot]
      decide
  | cons s rest =>
    have hs := hv s (by simp [hsegs])
    cases s with
    | nil => exact absurd rfl hs.1
    | cons c s2 =>
      have hc : c ≠ '/' := fun h => hs.2 (by simp [h])
      obtain ⟨tl, htl, h1, h2⟩ := joinSegs_head c s2 rest
      rw [trimmed_eq rootAbs _ (by simp), htl]
      by_cases hr : rootAbs = []
      · simp only [hr, if_true, decide_True, Bool.true_and]
        have hne : ¬ (c :: tl = [] ∧ w.isDir = true) := by simp
        simp only [hne, if_false, hiddenName, HasPrefix, firstSegDot, firstSegBackslashDot]
        cases s2 with
        | nil =>
          cases tl with
          | nil => simp [List.isPrefixOf, hc, beq_char]
          | cons d tl2 =>
            have hd : d = '/' := by
              by_contra hd
              have := h1 d (by simp) hd
              simp at this
            simp [List.isPrefixOf, hc, hd, beq_char]
        | cons x s3 =>
          have := h2 x (by simp)
          cases tl with
          | nil => simp at this
          | cons d tl2 =>
            simp only [List.head?_cons, Option.some.injEq] at this
            subst this
            simp [List.isPrefixOf, hc, beq_char]
      · have hne : ¬ ((if rootAbs = [] then c :: tl else '/' :: c :: tl) = [] ∧ w.isDir = true) := by
          simp [hr]
        simp only [hne, if_false, hr, hiddenName, HasPrefix, firstSegDot, decide_False,
          Bool.false_and, Bool.or_false]
        simp [List.isPrefixOf, beq_char]

/-! ## Walk filtering (C7) -/

theorem walkLoop_trace (root : Str) (rootAbs : Path) (patterns : List Str)
    (handler : Visit → Option Err) (hh : ∀ v, handler v = none) (ws : List WalkEntry) :
    walkLoop root rootAbs patterns handler ws
      = (none, ws.filterMap (walkFn root rootAbs patterns)) := by
  induction ws with
  | nil => rfl
  | cons w rest ih =>
    unfold walkLoop
    cases hw : walkFn root rootAbs patterns w with
    | none => simp [ih, List.filterMap_cons, hw]
    | some v => simp [hh v, ih, List.filterMap_cons, hw]

theorem walkFn_isSome (root : Str) (rootAbs : Path) (patterns : List Str) (w : WalkEntry)
    (hpat : patterns ≠ []) (hfirst : patterns.head? ≠ some ['-'])
    (hv : ∀ s ∈ w.segs, s ≠ [] ∧ '/' ∉ s) :
    (walkFn root rootAbs patterns w).isSome = visible rootAbs patterns w := by
  have hlen : patterns.length > 0 := List.length_pos.mpr hpat
  have hnm : notMatched patterns rootAbs w =
      (!w.isDir && !patterns.any (fun pattern => Match pattern (Base (rootAbs ++ w.segs)))) := by
    unfold notMatched
    cases w.isDir <;> simp [hlen, hfirst]
  unfold walkFn visible
  rw [hnm, hiddenName_display rootAbs w hv]
  cases w.isDir <;>
    cases patterns.any (fun pattern => Match pattern (Base (rootAbs ++ w.segs))) <;>
    cases firstSegDot w.segs <;>
    cases (decide (rootAbs = []) && firstSegBackslashDot w.segs) <;> simp

/-- C7 (evaluation): the overlay rooted at `/tmp/unpack-1` walks `../..`, which
resolves to the root directory, with the pattern `*`. The file named
backslash-dot-x there matches the pattern and its first component does not begin
with a dot, yet the callback returns before the handler call and the visitor is
called for the four directories only. Under the walk root `/tmp/unpack-1` the
callback does call the handler for a file of that name. -/
theorem walk_skips_backslash_dot :
    demoYaz.abs "../..".toList = [] ∧
    backslashFS.stat [['\\', '.', 'x']] = some (.file [2]) ∧
    visibleAsClaimed [] ["*".toList] ⟨[['\\', '.', 'x']], false, [2]⟩ = true ∧
    walkFn "../..".toList [] ["*".toList] ⟨[['\\', '.', 'x']], false, [2]⟩ = none ∧
    demoYaz.Walk backslashFS "../..".toList okHandler (some ["*".toList])
      = (none, [⟨"../..".toList, "/".toList, true⟩, ⟨"../..".toList, "tmp".toList, true⟩,
                ⟨"../..".toList, "tmp/pack-1".toList, true⟩,
                ⟨"../..".toList, "tmp/unpack-1".toList, true⟩]) ∧
    (walkFn "/".toList demoDest ["*".toList] ⟨[['\\', '.', 'x']], false, [2]⟩).isSome
      = true := by decide

/-- The filter of Walk below the root directory: for every resolved walk root
other than `/`, every list of visited entries with well-formed names (components
non-empty and free of the separator), every non-empty pattern list whose first
element is not `-` and every handler that returns no error, the handler calls
are, in walk order, those of the callback on exactly the entries that are
directories or have a base name matching a pattern and whose first component
below the resolved walk root does not begin with a dot. -/
theorem walk_visits_below_root (root : Str) (rootAbs : Path) (patterns : List Str)
    (handler : Visit → Option Err) (ws : List WalkEntry)
    (hroot : rootAbs ≠ [])
    (hpat : patterns ≠ []) (hfirst : patterns.head? ≠ some ['-'])
    (hh : ∀ v, handler v = none)
    (hv : ∀ w ∈ ws, ∀ s ∈ w.segs, s ≠ [] ∧ '/' ∉ s) :
    walkLoop root rootAbs patterns handler ws
      = (none, ws.filterMap (walkFn root rootAbs patterns)) ∧
    ∀ w ∈ ws,
      (walkFn root rootAbs patterns w).isSome = visibleAsClaimed rootAbs patterns w := by
  refine ⟨walkLoop_trace root rootAbs patterns handler hh ws, ?_⟩
  intro w hw
  rw [walkFn_isSome root rootAbs patterns w hpat hfirst (hv w hw)]
  simp [visible, visibleAsClaimed, hroot]

/-- The filter of Walk on the example of the spec: below `/tmp/unpack-1`, with the
pattern `*.json`, the visitor sees the root, `a.json`, `sub` and `sub/b.json`,
and neither `a.yao`, `.git` nor `.git/config`. -/
theorem walk_visits_example :
    walkLoop "/".toList demoDest ["*.json".toList] okHandler (walkNode [] walkTree)
      = (none, [⟨"/".toList, "/".toList, true⟩, ⟨"/".toList, "/a.json".toList, false⟩,
                ⟨"/".toList, "/sub".toList, true⟩, ⟨"/".toList, "/sub/b.json".toList, false⟩]) ∧
    (walkNode [] walkTree).filter (visibleAsClaimed demoDest ["*.json".toList])
      = [⟨[], true, []⟩, ⟨["a.json".toList], false, [2]⟩, ⟨["sub".toList], true, []⟩,
         ⟨["sub".toList, "b.json".toList], false, [4]⟩] := by
  have h := walk_visits_below_root "/".toList demoDest ["*.json".toList] okHandler
    (walkNode [] walkTree) (by decide) (by decide) (by decide) (fun _ => rfl) (by decide)
  refine ⟨?_, by decide⟩
  rw [h.1]
  decide

/-! ## The walk of a well-formed tree -/

mutual
theorem walkNode_good : ∀ (n : Node) (rel : List Str), n.WF = true →
    Below rel (walkNode rel n) ∧ ((walkNode rel n).map WalkEntry.segs).Nodup
      ∧ (∀ w ∈ walkNode rel n, w.isDir = false → w.segs = rel → n = .file w.data)
  | .file d, rel, _ => by
    refine ⟨?_, by simp [walkNode], ?_⟩
    · intro w hw
      simp only [walkNode, List.mem_singleton] at hw
      subst hw
      exact ⟨[], by simp, by simp⟩
    · intro w hw _ _
      simp only [walkNode, List.mem_singleton] at hw
      subst hw
      rfl
  | .dir kids, rel, h => by
    have hk : kids.WF = true := by simpa [Node.WF] using h
    obtain ⟨hb, hn⟩ := walkForest_good kids rel hk
    refine ⟨?_, ?_, ?_⟩
    · intro w hw
      simp only [walkNode, List.mem_cons] at hw
      rcases hw with rfl | hw
      · exact ⟨[], by simp, by simp⟩
      · obtain ⟨name, _, suf, hs, hvn, hvs⟩ := hb w hw
        refine ⟨name :: suf, hs, ?_⟩
        intro s hs2
        rcases List.mem_cons.mp hs2 with rfl | hs2
        · exact hvn
        · exact hvs s hs2
    · simp only [walkNode, List.map_cons, List.nodup_cons]
      refine ⟨?_, hn⟩
      intro hmem
      obtain ⟨w, hw, hseg⟩ := List.mem_map.mp hmem
      obtain ⟨name, _, suf, hs, _, _⟩ := hb w hw
      rw [hs] at hseg
      have := congrArg List.length hseg
      simp at this
    · intro w hw hd hseg
      simp only [walkNode, List.mem_cons] at hw
      rcases hw with rfl | hw
      · simp at hd
      · obtain ⟨name, _, suf, hs, _, _⟩ := hb w hw
        rw [hs] at hseg
        have := congrArg List.length hseg
        simp at this
theorem walkForest_good : ∀ (f : Forest) (rel : List Str), f.WF = true →
    BelowNames rel f.names (walkForest rel f) ∧
      ((walkForest rel f).map WalkEntry.segs).Nodup
  | .nil, rel, _ => by
    refine ⟨?_, by simp [walkForest]⟩
    intro w hw
    simp [walkForest] at hw
  | .cons name n rest, rel, h => by
    simp only [Forest.WF, Bool.and_eq_true, Bool.not_eq_true'] at h
    obtain ⟨⟨⟨hvn, hnot⟩, hn⟩, hr⟩ := h
    have hnot2 : name ∉ rest.names := by
      intro hm
      have : rest.names.contains name = true := by simpa using hm
      rw [hnot] at this
      cases this
    obtain ⟨hb1, hn1, _⟩ := walkNode_good n (rel ++ [name]) hn
    obtain ⟨hb2, hn2⟩ := walkForest_good rest rel hr
    refine ⟨?_, ?_⟩
    · intro w hw
      simp only [walkForest, List.mem_append] at hw
      rcases hw with hw | hw
      · obtain ⟨suf, hs, hvs⟩ := hb1 w hw
        exact ⟨name, by simp [Forest.names], suf, by simpa using hs, hvn, hvs⟩
      · obtain ⟨nm, hnm, suf, hs, hv1, hv2⟩ := hb2 w hw
        exact ⟨nm, by simp [Forest.names, hnm], suf, hs, hv1, hv2⟩
    · simp only [walkForest, List.map_append]
      rw [List.nodup_append]
      refine ⟨hn1, hn2, ?_⟩
      intro segs h1 h2
      obtain ⟨w1, hw1, hs1⟩ := List.mem_map.mp h1
      obtain ⟨w2, hw2, hs2⟩ := List.mem_map.mp h2
      obtain ⟨suf1, e1, _⟩ := hb1 w1 hw1
      obtain ⟨nm, hnm, suf2, e2, _, _⟩ := hb2 w2 hw2
      rw [hs1] at e1
      rw [hs2, e1] at e2
      simp only [List.append_assoc, List.singleton_append, List.append_cancel_left_eq,
        List.cons.injEq] at e2
      exact hnot2 (e2.1 ▸ hnm)
end

/-! ## Paths of well-formed names -/

/-- Every path that begins with `.git` is excluded: the `.git` and `.github`
directories, everything below them, and the top-level files `.gitignore`,
`.gitmodules`, `.gitattributes`, `.gitkeep` and `.gitlab-ci.yml`. -/
theorem git_paths_excluded (q : Str) : excluded (".git".toList ++ q) = true :=
  excluded_append q (by decide)

/-- Without a cipher no intermediate file is made, and the same source directory
comes back whole: both `a.json` and `a.json.dec` are in the destination. -/
theorem roundtrip_without_cipher_keeps_file :
    (Pack demoEnv srcFS demoRoot none 1).1.toOption = some demoTarget ∧
    (Unpack demoEnv (Pack demoEnv srcFS demoRoot none 1).2 demoTarget none 1).1.toOption
      = some demoDest ∧
    (Unpack demoEnv (Pack demoEnv srcFS demoRoot none 1).2 demoTarget none 1).2.stat
      (demoDest ++ ["a.json".toList]) = some (.file [1, 2, 3]) ∧
    (Unpack demoEnv (Pack demoEnv srcFS demoRoot none 1).2 demoTarget none 1).2.stat
      (demoDest ++ ["a.json.dec".toList]) = some (.file [9]) := by decide

end Gou
